import Mathlib

/-!
Verification development for the badger repository (files
`src/badger/schema.py` and `src/badger/util.py`).

The Python code is shallowly embedded as executable Lean definitions:

* scalar validators act on the textual contents of a YAML chunk and
  either return a value (`some`/`Except.ok`) or raise a validation
  failure (`none`/`Except.error`);
* `NestedDict` is a tree of insertion-ordered associative containers;
  a slash-delimited key is represented by its non-empty list of
  separator-free segments, so that the repeated `key.partition(sep)`
  of the Python code corresponds to head/tail recursion on the
  segment list;
* leaf values are opaque (a type parameter), matching the fact that
  `NestedDict` stores arbitrary non-container payloads: subscripting
  or iterating such a payload in Python raises `TypeError`.
-/

/-! ## Embedding of `schema.py` -/

/-- Embedding of `Deprecated.__call__` (schema.py lines 26-28).  The body
runs `log.warning(self._message)` first and only then delegates to the
inner validator, so exactly one warning is emitted per invocation, before
the inner validator is even consulted.  The result pairs the value of the
delegated call with the list of warnings emitted during the call. -/
def deprecatedCall (msg : String) (inner : α → Option β) (x : α) : Option β × List String :=
  (inner x, [msg])

/-- Embedding of `Literal.validate_scalar` (schema.py lines 40-43): fail
unless the expected string equals the chunk contents exactly, and return
the chunk contents verbatim on success. -/
def literalValidate (expected : String) (t : String) : Option String :=
  if expected ≠ t then none else some t

/-- The strictyaml `OrValidator` collaborator (an external dependency of
the repository, used by `Choice`): try the left validator and fall back to
the right one when the left fails. -/
def orValidator (a b : String → Option String) (t : String) : Option String :=
  match a t with
  | some r => some r
  | none => b t

/-- Embedding of `Choice` (schema.py lines 46-48):
`reduce(OrValidator, map(Literal, args))`.  Python `reduce` without an
initial value folds the tail over the head and raises `TypeError` on an
empty argument list, hence the `Option`. -/
def choiceValidate : List String → Option (String → Option String)
  | [] => none
  | l :: ls => some ((ls.map literalValidate).foldl orValidator (literalValidate l))

/-- Discriminator for `Except` results (a sub-validator succeeding versus
raising `YAMLValidationError`). -/
def exOk {ε β : Type} : Except ε β → Bool
  | .ok _ => true
  | .error _ => false

/-- Embedding of `First.__call__` (schema.py lines 114-127): try the
sub-validators in order, returning the first successful result; swallow
every `YAMLValidationError` along the way; when the list is exhausted
raise the single synthetic aggregate diagnostic.  (The Python code also
tags the successful result with `_selected_validator`; that annotation is
not modelled because no claim mentions it.) -/
def firstCall {α β : Type} (name : String) : List (α → Except String β) → α → Except String β
  | [], _ => .error ("failed to find a valid schema for " ++ name)
  | v :: vs, x =>
      match v x with
      | .ok r => .ok r
      | .error _ => firstCall name vs x

/-- The three native result types of the `Type` validator scalar map. -/
inductive PyType where
  | pyInt
  | pyStr
  | pyFloat
deriving DecidableEq

/-- The seven alternatives of the regex
`^(int|integer|str|string|float|floating|double)$` in `Type.scalar_regex`
(schema.py line 133). -/
def typeNames : List String := ["int", "integer", "str", "string", "float", "floating", "double"]

/-- Embedding of `Type.scalar_map` (schema.py lines 135-139). -/
def scalarMap : List (String × PyType) :=
  [("int", .pyInt), ("integer", .pyInt), ("str", .pyStr), ("string", .pyStr),
   ("float", .pyFloat), ("floating", .pyFloat), ("double", .pyFloat)]

/-- Python dict lookup in `scalar_map`: `None` models a raised `KeyError`. -/
def scalarMapGet (s : String) : Option PyType :=
  (scalarMap.find? (fun p => p.1 == s)).map (fun p => p.2)

/-- Embedding of `Type.scalar_regex.match` (schema.py line 142).  In
Python regular expressions without `re.MULTILINE`, the anchor `$` matches
at the end of the string and also just before a newline that ends the
string, so `^(a|b|...)$` accepts each alternative and also each
alternative followed by one final newline character. -/
def scalarRegexMatch (s : String) : Bool :=
  typeNames.any (fun a => s == a || s == a ++ "\n")

/-- Possible outcomes of `Type.validate_scalar`: a native type tag, a
raised `YAMLValidationError` (from `chunk.expecting_but_found`), or a
raised `KeyError` (the `scalar_map` lookup failing even though the regex
matched). -/
inductive TypeResult where
  | found (t : PyType)
  | invalid
  | keyErr
deriving DecidableEq

/-- Embedding of `Type.validate_scalar` (schema.py lines 141-144): if the
regex matches, look the contents up in `scalar_map` and return the native
type; otherwise raise a validation error. -/
def typeValidateScalar (s : String) : TypeResult :=
  if scalarRegexMatch s then
    match scalarMapGet s with
    | some t => .found t
    | none => .keyErr
  else .invalid

/-! ## Embedding of `NestedDict` (util.py lines 63-119)

An `Entries α` is the underlying insertion-ordered Python dict of one
`NestedDict` node: a sequence of bindings, each binding a key either to an
opaque leaf payload or to a nested sub-dict.  A `Node α` is the value
stored under one key. -/

/-- One `NestedDict` level: the insertion-ordered bindings of the
underlying Python dict.  Each key binds either an opaque leaf payload or
a sub-`NestedDict`. -/
inductive Entries (α : Type) where
  | nil : Entries α
  | consLeaf (k : String) (a : α) (r : Entries α) : Entries α
  | consTree (k : String) (t : Entries α) (r : Entries α) : Entries α
deriving DecidableEq

/-- The value stored under a single key of a `NestedDict` level: a leaf
payload or a sub-dict (the Python `isinstance(val, NestedDict)` test). -/
inductive Node (α : Type) where
  | leaf (a : α)
  | tree (d : Entries α)
deriving DecidableEq

/-- Bind `k` to node `n` in front of the remaining entries. -/
def consE (k : String) : Node α → Entries α → Entries α
  | .leaf a, r => .consLeaf k a r
  | .tree t, r => .consTree k t r

/-- Single-level Python dict lookup `dict.__getitem__` (returning `none`
for a raised `KeyError`). -/
def dGet (k : String) : Entries α → Option (Node α)
  | .nil => none
  | .consLeaf k' a r => if k' = k then some (.leaf a) else dGet k r
  | .consTree k' t r => if k' = k then some (.tree t) else dGet k r

/-- Single-level Python dict membership `dict.__contains__`. -/
def dContains (k : String) (d : Entries α) : Bool :=
  (dGet k d).isSome

/-- Single-level Python dict update `dict.__setitem__`: replace in place
when the key exists (keeping its position), else append at the end. -/
def dSet (k : String) (n : Node α) : Entries α → Entries α
  | .nil => consE k n .nil
  | .consLeaf k' a r => if k' = k then consE k' n r else .consLeaf k' a (dSet k n r)
  | .consTree k' t r => if k' = k then consE k' n r else .consTree k' t (dSet k n r)

/-- Embedding of `NestedDict.__setitem__` (util.py lines 71-78) on the
segment list of a slash-delimited key.  The returned pair is the state of
the dict after the call together with a success flag: `false` models the
`TypeError` raised by `target[rest] = value` when the first segment is
bound to a non-container leaf (in-place mutations performed before the
exception are retained in the returned state, exactly as in Python). -/
def ndSetM : List String → α → Entries α → Entries α × Bool
  | [last], v, d => (dSet last (.leaf v) d, true)
  | f :: r :: rs, v, d =>
      let d1 := if dContains f d then d else dSet f (.tree .nil) d
      match dGet f d1 with
      | some (.tree t) =>
          let p := ndSetM (r :: rs) v t
          (dSet f (.tree p.1) d1, p.2)
      | _ => (d1, false)
  | [], _, d => (d, false)

/-- Run a sequence of `NestedDict.__setitem__` calls in order, starting
from `d`; the flag is `true` when every single call succeeded. -/
def ndSetAll : List (List String × α) → Entries α → Entries α × Bool
  | [], d => (d, true)
  | pv :: ops, d =>
      let r := ndSetM pv.1 pv.2 d
      let rest := ndSetAll ops r.1
      (rest.1, r.2 && rest.2)

/-- The two ways `NestedDict.__getitem__` can raise: a missing key in a
sub-dict raises `KeyError` (a subclass of Python `LookupError`), while
subscripting a non-container leaf payload raises `TypeError` (not a
`LookupError`). -/
inductive GErr where
  | keyErr
  | typeErr
deriving DecidableEq

/-- Python exception taxonomy: `KeyError` is a `LookupError`,
`TypeError` is not. -/
def isLookupErr : GErr → Bool
  | .keyErr => true
  | .typeErr => false

/-- Embedding of `NestedDict.__getitem__` (util.py lines 80-84) on the
segment list of a slash-delimited key. -/
def ndGet : List String → Entries α → Except GErr (Node α)
  | [f], d =>
      match dGet f d with
      | some n => .ok n
      | none => .error .keyErr
  | f :: r :: rs, d =>
      match dGet f d with
      | some (.tree t) => ndGet (r :: rs) t
      | some (.leaf _) => .error .typeErr
      | none => .error .keyErr
  | [], _ => .error .typeErr

/-- Embedding of `NestedDict.__contains__` (util.py lines 65-69) on the
segment list of a slash-delimited key.  `none` models the `TypeError`
raised by `rest in super().__getitem__(first)` when the first segment is
bound to a non-container leaf payload. -/
def ndContains : List String → Entries α → Option Bool
  | [f], d => some (dContains f d)
  | f :: r :: rs, d =>
      if dContains f d then
        match dGet f d with
        | some (.tree t) => ndContains (r :: rs) t
        | _ => none
      else some false
  | [], _ => none

/-- Embedding of `NestedDict.keys` (util.py lines 86-92): the leaf paths
in iteration order, each path as its list of segments (Python joins the
segments with the separator). -/
def ndKeys : Entries α → List (List String)
  | .nil => []
  | .consLeaf k _ r => [k] :: ndKeys r
  | .consTree k t r => (ndKeys t).map (fun p => k :: p) ++ ndKeys r

/-- Embedding of `NestedDict.values` (util.py lines 94-99): the leaf
payloads in iteration order. -/
def ndValues : Entries α → List α
  | .nil => []
  | .consLeaf _ a r => a :: ndValues r
  | .consTree _ t r => ndValues t ++ ndValues r

/-- Embedding of `NestedDict.items` (util.py lines 101-107): the leaf
path/payload pairs in iteration order. -/
def ndItems : Entries α → List (List String × α)
  | .nil => []
  | .consLeaf k a r => ([k], a) :: ndItems r
  | .consTree k t r => (ndItems t).map (fun p => (k :: p.1, p.2)) ++ ndItems r

/-- Modelled from the spec: the notion of a slash-delimited path
"resolving, segment by segment through sub-trees, to an existing leaf
value or sub-tree" (spec sections 4.5 and on claims about `contains` and
`get`).  This is the specification-side reference against which the
source-side `ndGet` and `ndContains` are compared. -/
def resolve : List String → Entries α → Option (Node α)
  | [f], d => dGet f d
  | f :: r :: rs, d =>
      match dGet f d with
      | some (.tree t) => resolve (r :: rs) t
      | _ => none
  | [], _ => none

/-- Segment-wise path extension: `SegPre q p` states that `q` is an
initial run of the segments of `p` (possibly all of them). -/
def SegPre (q p : List String) : Prop :=
  p.take q.length = q

instance (q p : List String) : Decidable (SegPre q p) :=
  inferInstanceAs (Decidable (p.take q.length = q))

/-- A path is obstructed in a dict when some proper non-empty initial run
of its segments already resolves to a non-container leaf payload, so that
descending further must subscript that payload. -/
def Obstructed (p : List String) (d : Entries α) : Prop :=
  ∃ n, 0 < n ∧ n < p.length ∧ ∃ v, resolve (p.take n) d = some (Node.leaf v)

/-! ## Embedding of `struct_as_dict` (util.py lines 37-50)

A masked structured record is a sequence of named fields, each of which is
a fully-masked scalar (`ma.core.MaskedConstant`), a populated scalar
payload, or a nested record (`ma.mvoid` / `np.void`).  The type template
is a `NestedDict` whose leaves either mark a list-typed passthrough
(`get_origin(...) == list`) or carry a scalar constructor. -/

/-- A leaf of the `types` template: a list-typed passthrough or one of the
native scalar constructors produced by the `Type` validator. -/
inductive TypeT where
  | listT
  | convT (t : PyType)
deriving DecidableEq

/-- The fields of a masked structured record, in declared order. -/
inductive Fields (α : Type) where
  | nil : Fields α
  | consMasked (k : String) (r : Fields α) : Fields α
  | consScalar (k : String) (v : α) (r : Fields α) : Fields α
  | consRecord (k : String) (fs : Fields α) (r : Fields α) : Fields α
deriving DecidableEq

/-- The plain dict built by `struct_as_dict`: each binding is a raw
(list passthrough) value, a converted scalar, or a sub-dict. -/
inductive DEntries (α : Type) where
  | nil : DEntries α
  | consRaw (k : String) (v : α) (r : DEntries α) : DEntries α
  | consConv (k : String) (c : PyType) (v : α) (r : DEntries α) : DEntries α
  | consSub (k : String) (d : DEntries α) (r : DEntries α) : DEntries α
deriving DecidableEq

/-- Behaviour of the `struct_as_dict` loop when the `types` argument it
received is a non-container leaf payload instead of a `NestedDict`: an
empty record or a record whose first field is fully masked returns the
empty dict without ever touching `types`; any other first field evaluates
`types[k]` and raises `TypeError`. -/
def structAsDictNonDict : Fields α → Option (DEntries α)
  | .nil => some .nil
  | .consMasked _ _ => some .nil
  | .consScalar _ _ _ => none
  | .consRecord _ _ _ => none

/-- Embedding of `struct_as_dict` (util.py lines 37-50): walk the fields
in declared order; at the first fully-masked field return the dict built
so far; recurse into nested records with the matching sub-template; copy
list-typed scalar fields raw and apply the scalar constructor otherwise.
`none` models a raised exception: a missing template key (`KeyError`),
subscripting a non-container template leaf, or calling a sub-dict as a
constructor (`TypeError`). -/
def structAsDict : Fields α → Entries TypeT → Option (DEntries α)
  | .nil, _ => some .nil
  | .consMasked _ _, _ => some .nil
  | .consRecord k fs r, t =>
      match dGet k t with
      | some (.tree sub) =>
          match structAsDict fs sub with
          | some d => (structAsDict r t).map (fun r' => .consSub k d r')
          | none => none
      | some (.leaf _) =>
          match structAsDictNonDict fs with
          | some d => (structAsDict r t).map (fun r' => .consSub k d r')
          | none => none
      | none => none
  | .consScalar k v r, t =>
      match dGet k t with
      | some (.leaf .listT) => (structAsDict r t).map (fun r' => .consRaw k v r')
      | some (.leaf (.convT c)) => (structAsDict r t).map (fun r' => .consConv k c v r')
      | some (.tree _) => none
      | none => none

/-- Append two field sequences (used only to state theorems about records
whose field list decomposes around a masked field). -/
def fAppend : Fields α → Fields α → Fields α
  | .nil, g => g
  | .consMasked k r, g => .consMasked k (fAppend r g)
  | .consScalar k v r, g => .consScalar k v (fAppend r g)
  | .consRecord k fs r, g => .consRecord k fs (fAppend r g)

/-! ## Helper lemmas -/

/-- A successful `Literal` match returns the token text verbatim and only
fires on the expected string. -/
theorem literalValidate_some {a t r : String} (h : literalValidate a t = some r) :
    r = t ∧ t = a := by
  unfold literalValidate at h
  by_cases hat : a ≠ t
  · simp [hat] at h
  · push_neg at hat
    subst hat
    simp at h
    exact ⟨h.symm, rfl⟩

/-- `Literal` succeeds on exactly its expected string. -/
theorem literalValidate_self (t : String) : literalValidate t t = some t := by
  simp [literalValidate]

/-- Every success of an `OrValidator` of verbatim validators is verbatim. -/
theorem orValidator_verbatim {g : String → Option String} {a t : String}
    (hg : ∀ r, g t = some r → r = t) :
    ∀ r, orValidator g (literalValidate a) t = some r → r = t := by
  intro r hr
  unfold orValidator at hr
  revert hr
  cases hgt : g t with
  | some r0 =>
      intro hr
      simp only [Option.some.injEq] at hr
      rw [← hr]
      exact hg r0 hgt
  | none =>
      intro hr
      exact (literalValidate_some hr).1

/-- An `OrValidator` of a verbatim validator and one literal succeeds on
`t` exactly when the left side does or the literal is `t`. -/
theorem orValidator_some_self {g : String → Option String} {a t : String}
    (hg : ∀ r, g t = some r → r = t) :
    (orValidator g (literalValidate a) t = some t ↔ (g t = some t ∨ t = a)) := by
  unfold orValidator
  cases hgt : g t with
  | some r0 =>
      have hr0 := hg r0 hgt
      subst hr0
      simp
  | none =>
      by_cases hat : a = t
      · subst hat
        simp [literalValidate]
      · have hnone : literalValidate a t = none := by simp [literalValidate, hat]
        simp [hnone, eq_comm, hat]

/-- Folding `OrValidator` over literal validators succeeds exactly when
the seed succeeds or the token is one of the literals, and every success
returns the token verbatim. -/
theorem foldl_or_verbatim (t : String) :
    ∀ (ls : List String) (g : String → Option String),
      (∀ r, g t = some r → r = t) →
      (∀ r, ((ls.map literalValidate).foldl orValidator g) t = some r → r = t)
      ∧ (((ls.map literalValidate).foldl orValidator g) t = some t ↔ (g t = some t ∨ t ∈ ls)) := by
  intro ls
  induction ls with
  | nil =>
      intro g hg
      refine ⟨by simpa using hg, by simp⟩
  | cons a as ih =>
      intro g hg
      have hg' := orValidator_verbatim (a := a) hg
      have hmain := ih (orValidator g (literalValidate a)) hg'
      refine ⟨by simpa [List.foldl_cons] using hmain.1, ?_⟩
      rw [List.map_cons, List.foldl_cons]
      rw [hmain.2, orValidator_some_self hg, List.mem_cons]
      tauto

/-- `First` skips any failing initial run of sub-validators and returns
the first successful result. -/
theorem firstCall_skip_failures {α β : Type} (name : String) (x : α) :
    ∀ (l₁ : List (α → Except String β)) (r : α → Except String β)
      (l₂ : List (α → Except String β)),
      (∀ u ∈ l₁, exOk (u x) = false) → exOk (r x) = true →
      firstCall name (l₁ ++ r :: l₂) x = r x := by
  intro l₁
  induction l₁ with
  | nil =>
      intro r l₂ _ hr
      cases h : r x with
      | ok b => simp [firstCall, h]
      | error e => rw [h] at hr; simp [exOk] at hr
  | cons a l₁ ih =>
      intro r l₂ h1 hr
      have ha := h1 a (by simp)
      cases h : a x with
      | ok b => rw [h] at ha; simp [exOk] at ha
      | error e =>
          rw [List.cons_append]
          unfold firstCall
          rw [h]
          exact ih r l₂ (fun u hu => h1 u (by simp [hu])) hr

/-- `First` raises the aggregate diagnostic when every sub-validator
fails, regardless of the individual failure messages. -/
theorem firstCall_all_fail {α β : Type} (name : String) (x : α) :
    ∀ (vs : List (α → Except String β)), (∀ u ∈ vs, exOk (u x) = false) →
      firstCall name vs x = .error ("failed to find a valid schema for " ++ name) := by
  intro vs
  induction vs with
  | nil => intro _; rfl
  | cons a vs ih =>
      intro h
      have ha := h a (by simp)
      cases hax : a x with
      | ok b => rw [hax] at ha; simp [exOk] at ha
      | error e =>
          unfold firstCall
          rw [hax]
          exact ih (fun u hu => h u (by simp [hu]))

/-! ## Claim theorems -/

/-- C1 (amended): `Deprecated(msg, R)(x)` succeeds if and only if `R(x)`
succeeds, with the identical resulting value, and the warning side-effect
is emitted exactly once per invocation — on failed matches as well as on
successful ones, because `Deprecated.__call__` logs the warning before
delegating to the inner rule. -/
theorem deprecated_delegates_and_always_warns {α β : Type}
    (msg : String) (inner : α → Option β) (x : α) :
    (deprecatedCall msg inner x).1 = inner x
    ∧ (deprecatedCall msg inner x).2 = [msg]
    ∧ (deprecatedCall msg inner x).2.length = 1 :=
  ⟨rfl, rfl, rfl⟩

/-- C1 counterexample: on a failing inner rule the wrapper still emits its
warning, contradicting the claim that the warning fires zero times when
the match fails. -/
theorem deprecated_warning_on_failed_match_cex :
    deprecatedCall "capture-output is deprecated (now always on)"
        (fun _ : Nat => (none : Option Nat)) 0
      = (none, ["capture-output is deprecated (now always on)"])
    ∧ ["capture-output is deprecated (now always on)"] ≠ ([] : List String) :=
  ⟨rfl, by decide⟩

/-- C2: `First(name, R1..Rn)(x)` tries the sub-rules in declaration order
and returns the result of the first that succeeds; when every sub-rule
fails it raises the single aggregate failure with message
`failed to find a valid schema for <name>`, discarding the individual
sub-failures. -/
theorem first_ordered_choice {α β : Type} (name : String)
    (vs : List (α → Except String β)) (x : α) :
    (∀ (l₁ : List (α → Except String β)) (r : α → Except String β)
        (l₂ : List (α → Except String β)),
        vs = l₁ ++ r :: l₂ → (∀ u ∈ l₁, exOk (u x) = false) → exOk (r x) = true →
        firstCall name vs x = r x)
    ∧ ((∀ u ∈ vs, exOk (u x) = false) →
        firstCall name vs x = .error ("failed to find a valid schema for " ++ name)) := by
  constructor
  · intro l₁ r l₂ hv h1 hr
    rw [hv]
    exact firstCall_skip_failures name x l₁ r l₂ h1 hr
  · intro h
    exact firstCall_all_fail name x vs h

/-- C2 witness: a concrete `First` with two failing branches and one
succeeding branch returns the succeeding result, and one whose branches
all fail raises exactly the aggregate message. -/
theorem first_ordered_choice_witness :
    firstCall "capture"
        [fun _ : Nat => (Except.error "branch one failed" : Except String Nat),
         fun n : Nat => (Except.ok (n + 1) : Except String Nat)] 4
      = .ok 5
    ∧ firstCall "capture"
        [fun _ : Nat => (Except.error "branch one failed" : Except String Nat)] 4
      = .error ("failed to find a valid schema for " ++ "capture") := by
  constructor
  · exact (first_ordered_choice "capture" _ 4).1
      [fun _ : Nat => (Except.error "branch one failed" : Except String Nat)]
      (fun n : Nat => (Except.ok (n + 1) : Except String Nat)) [] rfl
      (by intro u hu; simp at hu; subst hu; rfl) rfl
  · exact (first_ordered_choice "capture" _ 4).2
      (by intro u hu; simp at hu; subst hu; rfl)

/-- C3: `Choice(L)` is constructible for every non-empty literal list and
succeeds on a token exactly when the token is one of the literals,
returning it verbatim; `Literal(expected)` succeeds exactly on `expected`
(case-sensitive, untrimmed) and returns the token verbatim. -/
theorem choice_literal_exact (l : String) (ls : List String) (t : String) :
    (∃ f, choiceValidate (l :: ls) = some f
        ∧ (f t = some t ↔ t ∈ l :: ls)
        ∧ (∀ r, f t = some r → r = t))
    ∧ (∀ e : String,
        (literalValidate e t = some t ↔ t = e)
        ∧ (∀ r, literalValidate e t = some r → r = t ∧ t = e)) := by
  constructor
  · have hseed : ∀ r, literalValidate l t = some r → r = t :=
      fun r hr => (literalValidate_some hr).1
    have h := foldl_or_verbatim t ls (literalValidate l) hseed
    refine ⟨_, rfl, ?_, h.1⟩
    rw [h.2, List.mem_cons]
    constructor
    · rintro (hl | hmem)
      · exact Or.inl (literalValidate_some hl).2
      · exact Or.inr hmem
    · rintro (hl | hmem)
      · subst hl; exact Or.inl (literalValidate_self t)
      · exact Or.inr hmem
  · intro e
    constructor
    · constructor
      · intro h; exact (literalValidate_some h).2
      · intro h; subst h; exact literalValidate_self t
    · intro r hr; exact literalValidate_some hr

/-- C3 witness: the concrete `Choice` built from three literals accepts a
member of the set verbatim. -/
theorem choice_literal_exact_witness :
    ∃ f, choiceValidate ["first", "last", "all"] = some f ∧ f "last" = some "last" := by
  obtain ⟨⟨f, hf, hiff, _⟩, _⟩ := choice_literal_exact "first" ["last", "all"] "last"
  exact ⟨f, hf, hiff.mpr (by decide)⟩

/-- C4: evaluation of the `Type` validator.  The seven recognized names
map to their native type tags and other strings such as `Int` are
rejected with a validation error, but the input `int` followed by one
newline character slips through the regex (Python `$` matches before a
final newline) and then crashes the `scalar_map` lookup with an
uncontrolled `KeyError` instead of being rejected. -/
theorem type_descriptor_eval :
    typeValidateScalar "int" = .found .pyInt
    ∧ typeValidateScalar "integer" = .found .pyInt
    ∧ typeValidateScalar "str" = .found .pyStr
    ∧ typeValidateScalar "string" = .found .pyStr
    ∧ typeValidateScalar "float" = .found .pyFloat
    ∧ typeValidateScalar "floating" = .found .pyFloat
    ∧ typeValidateScalar "double" = .found .pyFloat
    ∧ typeValidateScalar "Int" = .invalid
    ∧ typeValidateScalar "in" = .invalid
    ∧ typeValidateScalar "ints" = .invalid
    ∧ typeValidateScalar "" = .invalid
    ∧ typeValidateScalar "int " = .invalid
    ∧ typeValidateScalar "INT" = .invalid
    ∧ typeValidateScalar "int\n" = .keyErr
    ∧ TypeResult.keyErr ≠ TypeResult.invalid
    ∧ (∀ t : PyType, TypeResult.keyErr ≠ TypeResult.found t) := by
  exact ⟨rfl, rfl, rfl, rfl, rfl, rfl, rfl, rfl, rfl, rfl, rfl, rfl, rfl, rfl,
    by decide, fun t h => TypeResult.noConfusion h⟩

/-- C10: the three leaf iterators of `NestedDict` are mutually
consistent: `items()` is the pairing of `keys()` with `values()`, in the
same order and of the same length (and, by construction, only leaf
payloads are ever yielded — sub-tree nodes are transparent). -/
theorem keys_values_items_consistent {α : Type} (d : Entries α) :
    ndItems d = (ndKeys d).zip (ndValues d)
    ∧ (ndKeys d).length = (ndValues d).length := by
  induction d with
  | nil => exact ⟨rfl, rfl⟩
  | consLeaf k a r ih =>
      refine ⟨?_, ?_⟩
      · simp [ndItems, ndKeys, ndValues, ih.1]
      · simp [ndKeys, ndValues, ih.2]
  | consTree k t r iht ihr =>
      have hmap : (fun p : List String × α => (k :: p.1, p.2))
          = Prod.map (fun q : List String => k :: q) id := by
        funext p
        cases p
        rfl
      refine ⟨?_, ?_⟩
      · simp only [ndItems, ndKeys, ndValues]
        rw [List.zip_append (by simpa using iht.2)]
        rw [List.zip_map_left, ← iht.1, ← ihr.1, hmap]
      · simp [ndKeys, ndValues, iht.2, ihr.2]

/-- C8: `struct_as_dict` stops at the first fully-masked field: nothing
declared after that field influences the result (so populated fields
after the gap are excluded), and on the concrete record
(x populated, y masked, z populated) the result binds only x. -/
theorem struct_as_dict_truncates_at_masked {α : Type} :
    (∀ (xs : Fields α) (k : String) (rest rest' : Fields α) (t : Entries TypeT),
        structAsDict (fAppend xs (.consMasked k rest)) t
          = structAsDict (fAppend xs (.consMasked k rest')) t)
    ∧ (∀ (x y z : String) (a b : α) (c : PyType),
        structAsDict (.consScalar x a (.consMasked y (.consScalar z b .nil)))
            (.consLeaf x (TypeT.convT c) .nil)
          = some (.consConv x c a .nil)) := by
  constructor
  · intro xs
    induction xs with
    | nil => intro k rest rest' t; rfl
    | consMasked k0 r ih => intro k rest rest' t; rfl
    | consScalar k0 v r ih =>
        intro k rest rest' t
        cases hg : dGet k0 t with
        | none => simp only [fAppend, structAsDict, hg]
        | some n =>
            cases n with
            | leaf tt =>
                cases tt with
                | listT =>
                    simp only [fAppend, structAsDict, hg]
                    rw [ih k rest rest' t]
                | convT c =>
                    simp only [fAppend, structAsDict, hg]
                    rw [ih k rest rest' t]
            | tree s => simp only [fAppend, structAsDict, hg]
    | consRecord k0 fs r ihfs ihr =>
        intro k rest rest' t
        cases hg : dGet k0 t with
        | none => simp only [fAppend, structAsDict, hg]
        | some n =>
            cases n with
            | leaf tt =>
                cases hnd : structAsDictNonDict fs with
                | none => simp only [fAppend, structAsDict, hg, hnd]
                | some d0 =>
                    simp only [fAppend, structAsDict, hg, hnd]
                    rw [ihr k rest rest' t]
            | tree s =>
                cases hfs : structAsDict fs s with
                | none => simp only [fAppend, structAsDict, hg, hfs]
                | some d0 =>
                    simp only [fAppend, structAsDict, hg, hfs]
                    rw [ihr k rest rest' t]
  · intro x y z a b c
    simp [structAsDict, dGet]

/-- Looking up through `consE` is a single conditional. -/
theorem dGet_consE (k k' : String) (n : Node α) (r : Entries α) :
    dGet k (consE k' n r) = if k' = k then some n else dGet k r := by
  cases n <;> simp [consE, dGet]

/-- A key just written reads back as the written node. -/
theorem dGet_dSet_self (k : String) (n : Node α) (d : Entries α) :
    dGet k (dSet k n d) = some n := by
  induction d with
  | nil => simp [dSet, dGet_consE]
  | consLeaf k' a r ih =>
      by_cases h : k' = k
      · subst h; simp [dSet, dGet_consE]
      · simp [dSet, h, dGet, ih]
  | consTree k' t r iht ihr =>
      by_cases h : k' = k
      · subst h; simp [dSet, dGet_consE]
      · simp [dSet, h, dGet, ihr]

/-- Writing one key leaves the other keys unchanged. -/
theorem dGet_dSet_ne {k k' : String} (hk : k ≠ k') (n : Node α) (d : Entries α) :
    dGet k' (dSet k n d) = dGet k' d := by
  induction d with
  | nil => simp [dSet, dGet_consE, hk, dGet]
  | consLeaf k0 a r ih =>
      by_cases h : k0 = k
      · subst h; simp [dSet, dGet_consE, dGet, hk]
      · simp [dSet, h, dGet, ih]
  | consTree k0 t r iht ihr =>
      by_cases h : k0 = k
      · subst h; simp [dSet, dGet_consE, dGet, hk]
      · simp [dSet, h, dGet, ihr]

/-- Rewriting a key that already holds the written node is the identity
(Python dict update in place). -/
theorem dSet_id_of_get {k : String} {n : Node α} {d : Entries α}
    (h : dGet k d = some n) : dSet k n d = d := by
  induction d with
  | nil => simp [dGet] at h
  | consLeaf k0 a r ih =>
      by_cases hk : k0 = k
      · subst hk
        simp [dGet] at h
        subst h
        simp [dSet, consE]
      · rw [dGet, if_neg hk] at h
        simp [dSet, hk, ih h]
  | consTree k0 t r iht ihr =>
      by_cases hk : k0 = k
      · subst hk
        simp [dGet] at h
        subst h
        simp [dSet, consE]
      · rw [dGet, if_neg hk] at h
        simp [dSet, hk, ihr h]

/-- Setting a non-empty path into an empty dict always succeeds (fresh
sub-dicts are created on demand and never hit a leaf). -/
theorem ndSetM_nil_ok : ∀ (q : List String) (v : α), q ≠ [] →
    (ndSetM q v (.nil : Entries α)).2 = true := by
  intro q
  induction q with
  | nil => intro v h; exact absurd rfl h
  | cons f rest ih =>
      intro v _
      cases rest with
      | nil => rfl
      | cons r rs =>
          simp only [ndSetM, dContains, dGet, Option.isSome_none, Bool.false_eq_true,
            if_false, dSet, consE, if_pos rfl]
          exact ih v (by simp)

/-- A failing `NestedDict.__setitem__` leaves the dict unchanged: the
only mutation the Python code performs before raising is the creation of
a fresh empty sub-dict, and a failing call never reaches that branch. -/
theorem ndSetM_fail_unchanged : ∀ (p : List String) (v : α) (d : Entries α),
    (ndSetM p v d).2 = false → (ndSetM p v d).1 = d := by
  intro p
  induction p with
  | nil => intro v d _; rfl
  | cons f rest ih =>
      intro v d hfail
      cases rest with
      | nil => simp [ndSetM] at hfail
      | cons r rs =>
          by_cases hc : dContains f d
          · cases hg : dGet f d with
            | none => simp [dContains, hg] at hc
            | some n =>
                cases n with
                | leaf a =>
                    simp only [ndSetM, if_pos hc, hg]
                | tree t =>
                    simp only [ndSetM, if_pos hc, hg] at hfail ⊢
                    have hstate := ih v t hfail
                    rw [hstate]
                    exact dSet_id_of_get hg
          · exfalso
            simp only [ndSetM, if_neg hc, dGet_dSet_self] at hfail
            rw [ndSetM_nil_ok (r :: rs) v (by simp)] at hfail
            exact Bool.true_eq_false.mp hfail

/-- C9: after `set("a/b", 1)` on an empty `NestedDict`, the call
`set("a/b/c", 2)` descends into the leaf stored at `a/b` and fails with
an error instead of silently restructuring; the failing call leaves the
dict unchanged, so `a/b` still maps to 1.  In general a failing
`__setitem__` never mutates the dict, and by construction a key holds
either a leaf or a sub-dict, never both. -/
theorem setitem_collision_fails_unchanged :
    (ndSetM ["a", "b"] (1 : Nat) .nil).2 = true
    ∧ ndSetM ["a", "b", "c"] 2 (ndSetM ["a", "b"] (1 : Nat) .nil).1
        = ((ndSetM ["a", "b"] (1 : Nat) .nil).1, false)
    ∧ ndGet ["a", "b"] (ndSetM ["a", "b"] (1 : Nat) .nil).1 = .ok (.leaf 1)
    ∧ (∀ (p : List String) (v : Nat) (d : Entries Nat),
        (ndSetM p v d).2 = false → (ndSetM p v d).1 = d) := by
  refine ⟨rfl, rfl, rfl, ?_⟩
  intro p v d h
  exact ndSetM_fail_unchanged p v d h

/-- C9 witness: a concrete failing set call (descending through the leaf
bound to `x`) returns the dict unchanged. -/
theorem setitem_collision_witness :
    (ndSetM ["x", "y", "z"] (5 : Nat) (Entries.consLeaf "x" 7 .nil)).1
      = Entries.consLeaf "x" 7 .nil :=
  setitem_collision_fails_unchanged.2.2.2 ["x", "y", "z"] 5
    (Entries.consLeaf "x" 7 .nil) (by decide)

/-- No path resolves in an empty dict. -/
theorem resolve_nil_entries : ∀ (p : List String), resolve p (.nil : Entries α) = none
  | [] => rfl
  | [_] => rfl
  | _ :: _ :: _ => rfl

/-- No path is obstructed in an empty dict. -/
theorem not_obstructed_nil (p : List String) : ¬ Obstructed p (.nil : Entries α) := by
  rintro ⟨n, _, _, v, hres⟩
  rw [resolve_nil_entries] at hres
  cases hres

/-- Resolution of a single segment is the dict lookup itself. -/
theorem resolve_single (f : String) (d : Entries α) : resolve [f] d = dGet f d := rfl

/-- Resolution dies immediately on a missing first segment. -/
theorem resolve_cons_of_get_none {f : String} {d : Entries α} (q : List String)
    (h : dGet f d = none) : resolve (f :: q) d = none := by
  cases q with
  | nil => simpa [resolve] using h
  | cons r rs => simp [resolve, h]

/-- Resolution dies when a non-final first segment hits a leaf. -/
theorem resolve_cons_of_get_leaf {f : String} {d : Entries α} {a : α} (q : List String)
    (h : dGet f d = some (.leaf a)) (hq : q ≠ []) : resolve (f :: q) d = none := by
  cases q with
  | nil => exact absurd rfl hq
  | cons r rs => simp [resolve, h]

/-- Resolution steps through a sub-dict at the first segment. -/
theorem resolve_cons_of_get_tree {f : String} {d t : Entries α} (q : List String)
    (h : dGet f d = some (.tree t)) (hq : q ≠ []) : resolve (f :: q) d = resolve q t := by
  cases q with
  | nil => exact absurd rfl hq
  | cons r rs => simp [resolve, h]

/-- A single-segment path is never obstructed. -/
theorem not_obstructed_single (f : String) (d : Entries α) : ¬ Obstructed [f] d := by
  rintro ⟨n, hn0, hnlt, _⟩
  simp at hnlt
  omega

/-- A path whose first segment is missing is never obstructed. -/
theorem not_obstructed_cons_none {f : String} {d : Entries α} (q : List String)
    (h : dGet f d = none) : ¬ Obstructed (f :: q) d := by
  rintro ⟨n, hn0, hnlt, v, hres⟩
  obtain ⟨m, rfl⟩ : ∃ m, n = m + 1 := ⟨n - 1, by omega⟩
  rw [List.take_succ_cons, resolve_cons_of_get_none _ h] at hres
  cases hres

/-- A longer path whose first segment hits a leaf is obstructed. -/
theorem obstructed_cons_leaf {f : String} {d : Entries α} {a : α} (q : List String)
    (h : dGet f d = some (.leaf a)) (hq : q ≠ []) : Obstructed (f :: q) d := by
  refine ⟨1, by omega, ?_, a, ?_⟩
  · have : 0 < q.length := List.length_pos.mpr hq
    simp
    omega
  · simpa [List.take_succ_cons, resolve_single] using h

/-- Descending through a sub-dict shifts obstruction one level down. -/
theorem obstructed_cons_tree {f : String} {d t : Entries α} (q : List String)
    (h : dGet f d = some (.tree t)) (hq : q ≠ []) :
    (Obstructed (f :: q) d ↔ Obstructed q t) := by
  constructor
  · rintro ⟨n, hn0, hnlt, v, hres⟩
    obtain ⟨m, rfl⟩ : ∃ m, n = m + 1 := ⟨n - 1, by omega⟩
    rw [List.take_succ_cons] at hres
    rcases Nat.eq_zero_or_pos m with hm0 | hmpos
    · subst hm0
      rw [List.take_zero, resolve_single, h] at hres
      cases hres
    · have hqt : q.take m ≠ [] := by
        intro hcontra
        rcases List.take_eq_nil_iff.mp hcontra with h0 | h0
        · omega
        · exact hq h0
      rw [resolve_cons_of_get_tree _ h hqt] at hres
      refine ⟨m, hmpos, ?_, v, hres⟩
      simp at hnlt
      omega
  · rintro ⟨m, hm0, hmlt, v, hres⟩
    have hqt : q.take m ≠ [] := by
      intro hcontra
      rcases List.take_eq_nil_iff.mp hcontra with h0 | h0
      · omega
      · subst h0; simp at hmlt
    refine ⟨m + 1, by omega, by simp; omega, v, ?_⟩
    rw [List.take_succ_cons, resolve_cons_of_get_tree _ h hqt]
    exact hres

/-- Classification of `NestedDict.__getitem__`: it returns exactly the
nodes that the path resolves to; a missing segment in a sub-dict raises
`KeyError`; a leaf met before the last segment raises `TypeError`. -/
theorem ndGet_spec : ∀ (p : List String) (d : Entries α), p ≠ [] →
    (∀ n, ndGet p d = .ok n ↔ resolve p d = some n)
    ∧ (ndGet p d = .error .typeErr ↔ Obstructed p d)
    ∧ (ndGet p d = .error .keyErr ↔ (resolve p d = none ∧ ¬ Obstructed p d)) := by
  intro p
  induction p with
  | nil => intro d h; exact absurd rfl h
  | cons f q ih =>
      intro d _
      cases q with
      | nil =>
          cases hg : dGet f d with
          | none =>
              refine ⟨?_, ?_, ?_⟩
              · intro n; simp [ndGet, hg, resolve_single]
              · simp [ndGet, hg, not_obstructed_single]
              · simp [ndGet, hg, resolve_single, not_obstructed_single]
          | some n0 =>
              refine ⟨?_, ?_, ?_⟩
              · intro n; simp [ndGet, hg, resolve_single]
              · simp [ndGet, hg, not_obstructed_single]
              · simp [ndGet, hg, resolve_single]
      | cons r rs =>
          cases hg : dGet f d with
          | none =>
              refine ⟨?_, ?_, ?_⟩
              · intro n
                simp [ndGet, hg, resolve_cons_of_get_none _ hg]
              · simp [ndGet, hg, not_obstructed_cons_none _ hg]
              · simp [ndGet, hg, resolve_cons_of_get_none _ hg,
                  not_obstructed_cons_none _ hg]
          | some n0 =>
              cases n0 with
              | leaf a =>
                  refine ⟨?_, ?_, ?_⟩
                  · intro n
                    simp [ndGet, hg, resolve_cons_of_get_leaf (r :: rs) hg (by simp)]
                  · simp [ndGet, hg, obstructed_cons_leaf (r :: rs) hg (by simp)]
                  · simp [ndGet, hg, obstructed_cons_leaf (r :: rs) hg (by simp)]
              | tree t =>
                  have hrec := ih t (by simp)
                  refine ⟨?_, ?_, ?_⟩
                  · intro n
                    rw [show ndGet (f :: r :: rs) d = ndGet (r :: rs) t by simp [ndGet, hg]]
                    rw [resolve_cons_of_get_tree (r :: rs) hg (by simp)]
                    exact (hrec.1 n)
                  · rw [show ndGet (f :: r :: rs) d = ndGet (r :: rs) t by simp [ndGet, hg]]
                    rw [obstructed_cons_tree (r :: rs) hg (by simp)]
                    exact hrec.2.1
                  · rw [show ndGet (f :: r :: rs) d = ndGet (r :: rs) t by simp [ndGet, hg]]
                    rw [resolve_cons_of_get_tree (r :: rs) hg (by simp),
                      obstructed_cons_tree (r :: rs) hg (by simp)]
                    exact hrec.2.2

/-- Classification of `NestedDict.__contains__`: `True` exactly on
resolving paths, `False` when a sub-dict lacks a segment, and a raised
`TypeError` when a leaf is met before the last segment. -/
theorem ndContains_spec : ∀ (p : List String) (d : Entries α), p ≠ [] →
    (ndContains p d = some true ↔ (∃ n, resolve p d = some n))
    ∧ (ndContains p d = some false ↔ (resolve p d = none ∧ ¬ Obstructed p d))
    ∧ (ndContains p d = none ↔ Obstructed p d) := by
  intro p
  induction p with
  | nil => intro d h; exact absurd rfl h
  | cons f q ih =>
      intro d _
      cases q with
      | nil =>
          cases hg : dGet f d with
          | none =>
              refine ⟨?_, ?_, ?_⟩
              · simp [ndContains, dContains, hg, resolve_single]
              · simp [ndContains, dContains, hg, resolve_single, not_obstructed_single]
              · simp [ndContains, dContains, hg, not_obstructed_single]
          | some n0 =>
              refine ⟨?_, ?_, ?_⟩
              · simp [ndContains, dContains, hg, resolve_single]
              · simp [ndContains, dContains, hg, resolve_single]
              · simp [ndContains, dContains, hg, not_obstructed_single]
      | cons r rs =>
          cases hg : dGet f d with
          | none =>
              have hc : dContains f d = false := by simp [dContains, hg]
              refine ⟨?_, ?_, ?_⟩
              · simp [ndContains, hc, resolve_cons_of_get_none _ hg]
              · simp [ndContains, hc, resolve_cons_of_get_none _ hg,
                  not_obstructed_cons_none _ hg]
              · simp [ndContains, hc, not_obstructed_cons_none _ hg]
          | some n0 =>
              have hc : dContains f d = true := by simp [dContains, hg]
              cases n0 with
              | leaf a =>
                  refine ⟨?_, ?_, ?_⟩
                  · simp [ndContains, hc, hg, resolve_cons_of_get_leaf (r :: rs) hg (by simp)]
                  · simp [ndContains, hc, hg, obstructed_cons_leaf (r :: rs) hg (by simp)]
                  · simp [ndContains, hc, hg, obstructed_cons_leaf (r :: rs) hg (by simp)]
              | tree t =>
                  have hrec := ih t (by simp)
                  have hstep : ndContains (f :: r :: rs) d = ndContains (r :: rs) t := by
                    simp [ndContains, hc, hg]
                  refine ⟨?_, ?_, ?_⟩
                  · rw [hstep, resolve_cons_of_get_tree (r :: rs) hg (by simp)]
                    exact hrec.1
                  · rw [hstep, resolve_cons_of_get_tree (r :: rs) hg (by simp),
                      obstructed_cons_tree (r :: rs) hg (by simp)]
                    exact hrec.2.1
                  · rw [hstep, obstructed_cons_tree (r :: rs) hg (by simp)]
                    exact hrec.2.2

/-- C6 (amended): `contains(p)` returns True exactly when the full path
resolves, segment by segment through sub-trees, to an existing leaf or
sub-tree, and returns False when the first failure is a missing segment
in a sub-tree; but when a proper prefix of the path resolves to a
non-container leaf, `contains` raises a `TypeError` instead of returning
False. -/
theorem contains_resolution_amended {α : Type} (p : List String) (d : Entries α)
    (hp : p ≠ []) :
    (ndContains p d = some true ↔ (∃ n, resolve p d = some n))
    ∧ (ndContains p d = some false ↔ (resolve p d = none ∧ ¬ Obstructed p d))
    ∧ (ndContains p d = none ↔ Obstructed p d) :=
  ndContains_spec p d hp

/-- C6 witness: a resolving two-segment path tests as contained. -/
theorem contains_resolution_witness :
    ndContains ["a", "b"] (Entries.consTree "a" (Entries.consLeaf "b" (2 : Nat) .nil) .nil)
      = some true :=
  (contains_resolution_amended ["a", "b"]
      (Entries.consTree "a" (Entries.consLeaf "b" (2 : Nat) .nil) .nil) (by decide)).1.mpr
    ⟨Node.leaf 2, by decide⟩

/-- C6 counterexample: with the leaf 1 stored at `a`, the containment
test for `a/b` evaluates `"b" in 1` and raises a `TypeError`; it does not
return False as the claim states. -/
theorem contains_leaf_obstruction_cex :
    ndContains ["a", "b"] (Entries.consLeaf "a" (1 : Nat) .nil) = none
    ∧ (none : Option Bool) ≠ some false
    ∧ (none : Option Bool) ≠ some true :=
  ⟨rfl, by decide, by decide⟩

/-- C7 (amended): `get(p)` returns the node stored at the path whenever
the full path resolves; when a segment is missing from a sub-tree it
raises `KeyError`, which is a `LookupError`; but when a proper prefix of
the path resolves to a non-container leaf it raises `TypeError`, which is
not a `LookupError`. -/
theorem get_resolution_amended {α : Type} (p : List String) (d : Entries α)
    (hp : p ≠ []) :
    (∀ n, ndGet p d = .ok n ↔ resolve p d = some n)
    ∧ (ndGet p d = .error .keyErr ↔ (resolve p d = none ∧ ¬ Obstructed p d))
    ∧ (ndGet p d = .error .typeErr ↔ Obstructed p d)
    ∧ isLookupErr .keyErr = true
    ∧ isLookupErr .typeErr = false := by
  have h := ndGet_spec p d hp
  exact ⟨h.1, h.2.2, h.2.1, rfl, rfl⟩

/-- C7 witness: a resolving two-segment path returns its stored leaf, and
a path with a missing second segment raises the `KeyError` lookup
error. -/
theorem get_resolution_witness :
    ndGet ["a", "b"] (Entries.consTree "a" (Entries.consLeaf "b" (2 : Nat) .nil) .nil)
      = .ok (.leaf 2)
    ∧ ndGet ["a", "c"] (Entries.consTree "a" (Entries.consLeaf "b" (2 : Nat) .nil) .nil)
      = .error .keyErr := by
  constructor
  · exact ((get_resolution_amended ["a", "b"]
        (Entries.consTree "a" (Entries.consLeaf "b" (2 : Nat) .nil) .nil) (by decide)).1
      (Node.leaf 2)).mpr (by decide)
  · refine ((get_resolution_amended ["a", "c"]
        (Entries.consTree "a" (Entries.consLeaf "b" (2 : Nat) .nil) .nil) (by decide)).2.1).mpr
      ⟨by decide, ?_⟩
    rintro ⟨n, hn0, hnlt, v, hres⟩
    simp at hnlt
    have hn1 : n = 1 := by omega
    subst hn1
    simp [List.take_succ_cons, resolve_single, dGet] at hres

/-- Path extension is reflexive. -/
theorem SegPre_refl (p : List String) : SegPre p p := by
  simp [SegPre]

/-- An initial run of the segments of a path extends to that path. -/
theorem SegPre_take {n : Nat} {l : List String} (h : n ≤ l.length) :
    SegPre (l.take n) l := by
  simp [SegPre, List.length_take, Nat.min_eq_left h]

/-- Extension through a shared first segment. -/
theorem SegPre_cons (f : String) (a b : List String) :
    SegPre (f :: a) (f :: b) ↔ SegPre a b := by
  simp [SegPre, List.take_succ_cons]

/-- The empty list extends into every path. -/
theorem SegPre_nil_left (p : List String) : SegPre [] p := by
  simp [SegPre]

/-- A path that an extension relates to a longer or equal path is at most
as long. -/
theorem SegPre.length_le {q p : List String} (h : SegPre q p) :
    q.length ≤ p.length := by
  have := congrArg List.length h
  simp [List.length_take] at this
  omega

/-- A path extension decomposes the longer path as an append. -/
theorem SegPre.eq_append {q p : List String} (h : SegPre q p) :
    p = q ++ p.drop q.length := by
  conv_lhs => rw [← List.take_append_drop q.length p]
  rw [h]

/-- A successful set call has a non-empty path. -/
theorem ndSetM_ne_nil_of_ok {p : List String} {v : α} {d : Entries α}
    (h : (ndSetM p v d).2 = true) : p ≠ [] := by
  intro hp
  subst hp
  simp [ndSetM] at h

/-- An unobstructed non-empty path can always be set. -/
theorem ndSetM_ok_of_not_obstructed : ∀ (p : List String) (v : α) (d : Entries α),
    p ≠ [] → ¬ Obstructed p d → (ndSetM p v d).2 = true := by
  intro p
  induction p with
  | nil => intro v d h _; exact absurd rfl h
  | cons f q ih =>
      intro v d _ hobs
      cases q with
      | nil => rfl
      | cons r rs =>
          by_cases hc : dContains f d
          · cases hg : dGet f d with
            | none => simp [dContains, hg] at hc
            | some n0 =>
                cases n0 with
                | leaf a => exact absurd (obstructed_cons_leaf (r :: rs) hg (by simp)) hobs
                | tree t =>
                    simp only [ndSetM, if_pos hc, hg]
                    exact ih v t (by simp)
                      (fun h => hobs ((obstructed_cons_tree (r :: rs) hg (by simp)).mpr h))
          · simp only [ndSetM, if_neg hc, dGet_dSet_self]
            exact ndSetM_nil_ok (r :: rs) v (by simp)

/-- After a successful set, the path resolves to the written leaf. -/
theorem resolve_ndSetM_self : ∀ (p : List String) (v : α) (d : Entries α),
    (ndSetM p v d).2 = true → resolve p (ndSetM p v d).1 = some (.leaf v) := by
  intro p
  induction p with
  | nil => intro v d h; simp [ndSetM] at h
  | cons f q ih =>
      intro v d hok
      cases q with
      | nil => simp [ndSetM, resolve_single, dGet_dSet_self]
      | cons r rs =>
          by_cases hc : dContains f d
          · cases hg : dGet f d with
            | none => simp [dContains, hg] at hc
            | some n0 =>
                cases n0 with
                | leaf a => simp [ndSetM, if_pos hc, hg] at hok
                | tree t =>
                    simp only [ndSetM, if_pos hc, hg] at hok ⊢
                    rw [resolve_cons_of_get_tree (r :: rs) (dGet_dSet_self f _ d) (by simp)]
                    exact ih v t hok
          · simp only [ndSetM, if_neg hc, dGet_dSet_self]
            rw [resolve_cons_of_get_tree (r :: rs) (dGet_dSet_self f _ _) (by simp)]
            exact ih v .nil (ndSetM_nil_ok (r :: rs) v (by simp))

/-- Two successive writes to the same key collapse to the second. -/
theorem dSet_dSet (k : String) (n1 n2 : Node α) (d : Entries α) :
    dSet k n2 (dSet k n1 d) = dSet k n2 d := by
  induction d with
  | nil => cases n1 <;> cases n2 <;> simp [dSet, consE]
  | consLeaf k0 a r ih =>
      by_cases h : k0 = k
      · subst h; cases n1 <;> cases n2 <;> simp [dSet, consE]
      · simp [dSet, h, ih]
  | consTree k0 t r iht ihr =>
      by_cases h : k0 = k
      · subst h; cases n1 <;> cases n2 <;> simp [dSet, consE]
      · simp [dSet, h, ihr]

/-- Resolution of a path only depends on the binding of its first
segment. -/
theorem resolve_cons_congr {g : String} {s d : Entries α} (q : List String)
    (h : dGet g s = dGet g d) : resolve (g :: q) s = resolve (g :: q) d := by
  cases q with
  | nil => simp [resolve_single, h]
  | cons q1 qs =>
      cases hgg : dGet g d with
      | none =>
          rw [resolve_cons_of_get_none _ (h.trans hgg), resolve_cons_of_get_none _ hgg]
      | some n0 =>
          cases n0 with
          | leaf a =>
              rw [resolve_cons_of_get_leaf _ (h.trans hgg) (by simp),
                resolve_cons_of_get_leaf _ hgg (by simp)]
          | tree tg =>
              rw [resolve_cons_of_get_tree _ (h.trans hgg) (by simp),
                resolve_cons_of_get_tree _ hgg (by simp)]

/-- A set call never touches the binding of a different head segment. -/
theorem dGet_ndSetM_head_ne {f : String} (pr : List String) (v : α) (d : Entries α)
    {g : String} (hfg : f ≠ g) : dGet g (ndSetM (f :: pr) v d).1 = dGet g d := by
  cases pr with
  | nil => simpa [ndSetM] using dGet_dSet_ne hfg _ d
  | cons p1 ps =>
      by_cases hc : dContains f d
      · cases hg : dGet f d with
        | none => simp [dContains, hg] at hc
        | some n0 =>
            cases n0 with
            | leaf a => simp [ndSetM, if_pos hc, hg]
            | tree t =>
                simp only [ndSetM, if_pos hc, hg]
                exact dGet_dSet_ne hfg _ d
      · simp only [ndSetM, if_neg hc, dGet_dSet_self]
        rw [dGet_dSet_ne hfg, dGet_dSet_ne hfg]

/-- Frame property of `__setitem__`: a set call at path `p` does not
change the resolution of any path that neither extends into `p` nor is
extended by `p`. -/
theorem resolve_ndSetM_frame : ∀ (p : List String) (v : α) (d : Entries α) (q : List String),
    ¬ SegPre p q → ¬ SegPre q p → resolve q (ndSetM p v d).1 = resolve q d := by
  intro p
  induction p with
  | nil => intro v d q hpq _; exact absurd (SegPre_nil_left q) hpq
  | cons f pr ih =>
      intro v d q hpq hqp
      cases q with
      | nil => exact absurd (SegPre_nil_left (f :: pr)) hqp
      | cons g qr =>
          by_cases hfg : f = g
          · subst hfg
            cases pr with
            | nil =>
                cases qr with
                | nil => exact absurd (SegPre_refl [f]) hpq
                | cons q1 qs => exact absurd (by simp [SegPre]) hpq
            | cons p1 ps =>
                cases qr with
                | nil => exact absurd (by simp [SegPre]) hqp
                | cons q1 qs =>
                    have hpq' : ¬ SegPre (p1 :: ps) (q1 :: qs) :=
                      fun h => hpq ((SegPre_cons f _ _).mpr h)
                    have hqp' : ¬ SegPre (q1 :: qs) (p1 :: ps) :=
                      fun h => hqp ((SegPre_cons f _ _).mpr h)
                    by_cases hc : dContains f d
                    · cases hg : dGet f d with
                      | none => simp [dContains, hg] at hc
                      | some n0 =>
                          cases n0 with
                          | leaf a => simp only [ndSetM, if_pos hc, hg]
                          | tree t =>
                              simp only [ndSetM, if_pos hc, hg]
                              rw [resolve_cons_of_get_tree (q1 :: qs)
                                  (dGet_dSet_self f _ d) (by simp)]
                              rw [resolve_cons_of_get_tree (q1 :: qs) hg (by simp)]
                              exact ih v t (q1 :: qs) hpq' hqp'
                    · have hgn : dGet f d = none := by
                        cases hgg : dGet f d with
                        | none => rfl
                        | some n0 => exact absurd (by simp [dContains, hgg]) hc
                      simp only [ndSetM, if_neg hc, dGet_dSet_self]
                      rw [dSet_dSet]
                      rw [resolve_cons_of_get_tree (q1 :: qs)
                          (dGet_dSet_self f _ d) (by simp)]
                      rw [resolve_cons_of_get_none (q1 :: qs) hgn]
                      rw [ih v .nil (q1 :: qs) hpq' hqp', resolve_nil_entries]
          · exact resolve_cons_congr qr (dGet_ndSetM_head_ne pr v d (fun h => hfg h))

/-- After a successful set at `p`, every proper non-empty initial run of
`p` resolves to a sub-dict. -/
theorem resolve_take_tree_ndSetM : ∀ (p : List String) (v : α) (d : Entries α),
    (ndSetM p v d).2 = true → ∀ n, 0 < n → n < p.length →
    ∃ t, resolve (p.take n) (ndSetM p v d).1 = some (.tree t) := by
  intro p
  induction p with
  | nil => intro v d _ n _ hlt; simp at hlt
  | cons f q ih =>
      intro v d hok n hn0 hlt
      cases q with
      | nil => simp at hlt; omega
      | cons r rs =>
          obtain ⟨m, rfl⟩ : ∃ m, n = m + 1 := ⟨n - 1, by omega⟩
          rw [List.take_succ_cons]
          by_cases hc : dContains f d
          · cases hg : dGet f d with
            | none => simp [dContains, hg] at hc
            | some n0 =>
                cases n0 with
                | leaf a => simp [ndSetM, if_pos hc, hg] at hok
                | tree t =>
                    simp only [ndSetM, if_pos hc, hg] at hok ⊢
                    rcases Nat.eq_zero_or_pos m with hm0 | hmpos
                    · subst hm0
                      exact ⟨_, by rw [List.take_zero, resolve_single, dGet_dSet_self]⟩
                    · have hmlt : m < (r :: rs).length := by simp at hlt ⊢; omega
                      obtain ⟨t', ht'⟩ := ih v t hok m hmpos hmlt
                      refine ⟨t', ?_⟩
                      rw [resolve_cons_of_get_tree _ (dGet_dSet_self f _ d) (by
                        intro hcontra
                        rcases List.take_eq_nil_iff.mp hcontra with h0 | h0
                        · omega
                        · cases h0)]
                      exact ht'
          · simp only [ndSetM, if_neg hc, dGet_dSet_self] at hok ⊢
            rw [dSet_dSet]
            rcases Nat.eq_zero_or_pos m with hm0 | hmpos
            · subst hm0
              exact ⟨_, by rw [List.take_zero, resolve_single, dGet_dSet_self]⟩
            · have hmlt : m < (r :: rs).length := by simp at hlt ⊢; omega
              have hniok : (ndSetM (r :: rs) v (.nil : Entries α)).2 = true :=
                ndSetM_nil_ok (r :: rs) v (by simp)
              obtain ⟨t', ht'⟩ := ih v .nil hniok m hmpos hmlt
              refine ⟨t', ?_⟩
              rw [resolve_cons_of_get_tree _ (dGet_dSet_self f _ d) (by
                intro hcontra
                rcases List.take_eq_nil_iff.mp hcontra with h0 | h0
                · omega
                · cases h0)]
              exact ht'

/-- Resolution of an appended path factors through the node reached by
the first part. -/
theorem resolve_append : ∀ (a b : List String) (d : Entries α), a ≠ [] → b ≠ [] →
    resolve (a ++ b) d
      = (match resolve a d with
         | some (.tree t) => resolve b t
         | some (.leaf _) => none
         | none => none) := by
  intro a
  induction a with
  | nil => intro b d h _; exact absurd rfl h
  | cons f ar ih =>
      intro b d _ hb
      cases ar with
      | nil =>
          rw [resolve_single]
          cases hg : dGet f d with
          | none => simpa using resolve_cons_of_get_none b hg
          | some n0 =>
              cases n0 with
              | leaf a0 => simpa using resolve_cons_of_get_leaf b hg hb
              | tree t => simpa using resolve_cons_of_get_tree b hg hb
      | cons a1 as =>
          have har : (a1 :: as) ++ b ≠ [] := by simp
          cases hg : dGet f d with
          | none =>
              rw [List.cons_append, resolve_cons_of_get_none _ hg,
                resolve_cons_of_get_none (a1 :: as) hg]
          | some n0 =>
              cases n0 with
              | leaf a0 =>
                  rw [List.cons_append, resolve_cons_of_get_leaf _ hg (by simp),
                    resolve_cons_of_get_leaf (a1 :: as) hg (by simp)]
              | tree t =>
                  rw [List.cons_append, resolve_cons_of_get_tree _ hg (by simp),
                    resolve_cons_of_get_tree (a1 :: as) hg (by simp)]
                  exact ih b t (by simp) hb

/-- A successful set at `p` creates no new leaf resolution other than at
`p` itself. -/
theorem resolve_new_leaf_only_at_path (p : List String) (v : α) (d : Entries α)
    (hok : (ndSetM p v d).2 = true) (r : List String) (w : α)
    (hres : resolve r (ndSetM p v d).1 = some (.leaf w)) :
    resolve r d = some (.leaf w) ∨ r = p := by
  have hp : p ≠ [] := ndSetM_ne_nil_of_ok hok
  have hr : r ≠ [] := by
    intro h0
    subst h0
    cases p with
    | nil => exact hp rfl
    | cons f q => simp [resolve] at hres
  by_cases hrp : SegPre r p
  · by_cases heq : r = p
    · exact Or.inr heq
    · exfalso
      have hlen : r.length < p.length := by
        rcases Nat.lt_or_ge r.length p.length with h | h
        · exact h
        · have hle := SegPre.length_le hrp
          have : r.length = p.length := by omega
          rw [SegPre, List.take_of_length_le (by omega)] at hrp
          exact heq (hrp.symm) |>.elim
      obtain ⟨t0, ht0⟩ := resolve_take_tree_ndSetM p v d hok r.length
        (by cases r with | nil => exact absurd rfl hr | cons a b => simp) hlen
      rw [SegPre] at hrp
      rw [hrp] at ht0
      rw [ht0] at hres
      cases hres
  · by_cases hpr : SegPre p r
    · exfalso
      have hdec := SegPre.eq_append hpr
      have hdrop : r.drop p.length ≠ [] := by
        intro h0
        have : r = p := by rw [hdec, h0, List.append_nil]
        exact hrp (this ▸ SegPre_refl r)
      rw [hdec, resolve_append p _ _ hp hdrop, resolve_ndSetM_self p v d hok] at hres
      cases hres
    · rw [resolve_ndSetM_frame p v d r hpr hrp] at hres
      exact Or.inl hres

/-- Writing a fresh key appends a leaf key path at the end. -/
theorem ndKeys_dSet_fresh_leaf {k : String} {d : Entries α} (v : α)
    (h : dGet k d = none) : ndKeys (dSet k (.leaf v) d) = ndKeys d ++ [[k]] := by
  induction d with
  | nil => simp [dSet, consE, ndKeys]
  | consLeaf k0 a r ih =>
      have hk : ¬ k0 = k := by
        intro h0
        rw [dGet, if_pos h0] at h
        cases h
      rw [dGet, if_neg hk] at h
      simp [dSet, hk, ndKeys, ih h]
  | consTree k0 t r iht ihr =>
      have hk : ¬ k0 = k := by
        intro h0
        rw [dGet, if_pos h0] at h
        cases h
      rw [dGet, if_neg hk] at h
      simp [dSet, hk, ndKeys, ihr h]

/-- Writing a fresh sub-dict key appends its key paths at the end. -/
theorem ndKeys_dSet_fresh_tree {k : String} {d : Entries α} (t : Entries α)
    (h : dGet k d = none) :
    ndKeys (dSet k (.tree t) d) = ndKeys d ++ (ndKeys t).map (fun p => k :: p) := by
  induction d with
  | nil => simp [dSet, consE, ndKeys]
  | consLeaf k0 a r ih =>
      have hk : ¬ k0 = k := by
        intro h0
        rw [dGet, if_pos h0] at h
        cases h
      rw [dGet, if_neg hk] at h
      simp [dSet, hk, ndKeys, ih h]
  | consTree k0 t0 r iht ihr =>
      have hk : ¬ k0 = k := by
        intro h0
        rw [dGet, if_pos h0] at h
        cases h
      rw [dGet, if_neg hk] at h
      simp [dSet, hk, ndKeys, ihr h]

/-- Overwriting a leaf with a leaf keeps the key paths unchanged. -/
theorem ndKeys_dSet_leaf_leaf {k : String} {d : Entries α} {a : α} (v : α)
    (h : dGet k d = some (.leaf a)) : ndKeys (dSet k (.leaf v) d) = ndKeys d := by
  induction d with
  | nil => cases h
  | consLeaf k0 a0 r ih =>
      by_cases hk : k0 = k
      · subst hk; simp [dSet, consE, ndKeys]
      · rw [dGet, if_neg hk] at h
        simp [dSet, hk, ndKeys, ih h]
  | consTree k0 t r iht ihr =>
      by_cases hk : k0 = k
      · subst hk
        rw [dGet, if_pos rfl] at h
        cases h
      · rw [dGet, if_neg hk] at h
        simp [dSet, hk, ndKeys, ihr h]

/-- Replacing a sub-dict by one with identical key paths keeps the key
paths of the whole dict unchanged. -/
theorem ndKeys_dSet_tree_eq {k : String} {d t t' : Entries α}
    (h : dGet k d = some (.tree t)) (hkeys : ndKeys t' = ndKeys t) :
    ndKeys (dSet k (.tree t') d) = ndKeys d := by
  induction d with
  | nil => cases h
  | consLeaf k0 a0 r ih =>
      by_cases hk : k0 = k
      · subst hk
        rw [dGet, if_pos rfl] at h
        cases h
      · rw [dGet, if_neg hk] at h
        simp [dSet, hk, ndKeys, ih h]
  | consTree k0 t0 r iht ihr =>
      by_cases hk : k0 = k
      · subst hk
        rw [dGet, if_pos rfl] at h
        have ht0 : t0 = t := by
          cases h
          rfl
        subst ht0
        simp [dSet, consE, ndKeys, hkeys]
      · rw [dGet, if_neg hk] at h
        simp [dSet, hk, ndKeys, ihr h]

/-- Replacing a sub-dict by one whose key paths gained exactly the fresh
path `q` inserts the corresponding full path into the key paths of the
whole dict (up to permutation). -/
theorem ndKeys_dSet_tree_perm {k : String} {d : Entries α} {t t' : Entries α}
    {q : List String} (h : dGet k d = some (.tree t))
    (hperm : (ndKeys t').Perm (q :: ndKeys t)) :
    (ndKeys (dSet k (.tree t') d)).Perm ((k :: q) :: ndKeys d) := by
  induction d with
  | nil => cases h
  | consLeaf k0 a0 r ih =>
      by_cases hk : k0 = k
      · subst hk
        rw [dGet, if_pos rfl] at h
        cases h
      · rw [dGet, if_neg hk] at h
        simp only [dSet, if_neg hk, ndKeys]
        exact ((ih h).cons [k0]).trans (List.Perm.swap (k :: q) [k0] (ndKeys r))
  | consTree k0 t0 r iht ihr =>
      by_cases hk : k0 = k
      · subst hk
        rw [dGet, if_pos rfl] at h
        injection h with h1
        injection h1 with h2
        rw [← h2] at hperm
        simp only [dSet, if_pos rfl, consE, ndKeys]
        have hm : ((ndKeys t').map (fun p => k0 :: p)).Perm
            ((k0 :: q) :: (ndKeys t0).map (fun p => k0 :: p)) :=
          hperm.map (fun p => k0 :: p)
        exact hm.append_right (ndKeys r)
      · rw [dGet, if_neg hk] at h
        simp only [dSet, if_neg hk, ndKeys]
        refine (((ihr h).append_left ((ndKeys t0).map (fun p => k0 :: p))).trans ?_)
        exact List.perm_middle

/-- A successful set at a path with no previous resolution adds exactly
that path to the key paths (up to permutation). -/
theorem ndKeys_ndSetM_fresh : ∀ (p : List String) (v : α) (d : Entries α),
    (ndSetM p v d).2 = true → resolve p d = none →
    (ndKeys (ndSetM p v d).1).Perm (p :: ndKeys d) := by
  intro p
  induction p with
  | nil => intro v d hok _; simp [ndSetM] at hok
  | cons f q ih =>
      intro v d hok hfresh
      cases q with
      | nil =>
          rw [resolve_single] at hfresh
          simp only [ndSetM]
          rw [ndKeys_dSet_fresh_leaf v hfresh]
          exact List.perm_append_singleton [f] (ndKeys d)
      | cons r rs =>
          by_cases hc : dContains f d
          · cases hg : dGet f d with
            | none => simp [dContains, hg] at hc
            | some n0 =>
                cases n0 with
                | leaf a => simp [ndSetM, if_pos hc, hg] at hok
                | tree t =>
                    rw [resolve_cons_of_get_tree (r :: rs) hg (by simp)] at hfresh
                    simp only [ndSetM, if_pos hc, hg] at hok ⊢
                    exact ndKeys_dSet_tree_perm hg (ih v t hok hfresh)
          · have hgn : dGet f d = none := by
              cases hgg : dGet f d with
              | none => rfl
              | some n0 => exact absurd (by simp [dContains, hgg]) hc
            simp only [ndSetM, if_neg hc, dGet_dSet_self] at hok ⊢
            have hni : (ndSetM (r :: rs) v (.nil : Entries α)).2 = true :=
              ndSetM_nil_ok (r :: rs) v (by simp)
            have hper := ih v .nil hni (resolve_nil_entries (r :: rs))
            have h2 := ndKeys_dSet_tree_perm (dGet_dSet_self f (.tree .nil) d) hper
            have h3 : ndKeys (dSet f (.tree .nil) d) = ndKeys d := by
              rw [ndKeys_dSet_fresh_tree _ hgn]
              simp [ndKeys]
            rw [h3] at h2
            exact h2

/-- Overwriting an existing leaf path succeeds and keeps the sequence of
key paths (hence also their order) unchanged. -/
theorem ndSetM_overwrite : ∀ (p : List String) (v w : α) (d : Entries α),
    resolve p d = some (.leaf w) →
    (ndSetM p v d).2 = true ∧ ndKeys (ndSetM p v d).1 = ndKeys d := by
  intro p
  induction p with
  | nil => intro v w d h; simp [resolve] at h
  | cons f q ih =>
      intro v w d hres
      cases q with
      | nil =>
          rw [resolve_single] at hres
          exact ⟨rfl, by simp only [ndSetM]; exact ndKeys_dSet_leaf_leaf v hres⟩
      | cons r rs =>
          cases hg : dGet f d with
          | none =>
              rw [resolve_cons_of_get_none (r :: rs) hg] at hres
              cases hres
          | some n0 =>
              cases n0 with
              | leaf a =>
                  rw [resolve_cons_of_get_leaf (r :: rs) hg (by simp)] at hres
                  cases hres
              | tree t =>
                  rw [resolve_cons_of_get_tree (r :: rs) hg (by simp)] at hres
                  have hc : dContains f d := by simp [dContains, hg]
                  obtain ⟨hok, hkeys⟩ := ih v w t hres
                  constructor
                  · simp only [ndSetM, if_pos hc, hg]
                    exact hok
                  · simp only [ndSetM, if_pos hc, hg]
                    exact ndKeys_dSet_tree_eq hg hkeys

/-- Invariant of a sequence of set calls on pairwise extension-free
paths: every call succeeds, every path resolves to its written value,
the key paths gain exactly the written paths, and resolution of
unrelated paths is untouched. -/
theorem ndSetAll_inv : ∀ (ops : List (List String × α)) (d : Entries α),
    (∀ pv ∈ ops, pv.1 ≠ ([] : List String)
        ∧ resolve pv.1 d = none ∧ ¬ Obstructed pv.1 d) →
    ops.Pairwise (fun pv qv => ¬ SegPre pv.1 qv.1 ∧ ¬ SegPre qv.1 pv.1) →
    (ndSetAll ops d).2 = true
    ∧ (∀ pv ∈ ops, resolve pv.1 (ndSetAll ops d).1 = some (.leaf pv.2))
    ∧ ((ndKeys (ndSetAll ops d).1).Perm (ops.map Prod.fst ++ ndKeys d))
    ∧ (∀ rp : List String,
        (∀ qv ∈ ops, ¬ SegPre rp qv.1 ∧ ¬ SegPre qv.1 rp) →
        resolve rp (ndSetAll ops d).1 = resolve rp d) := by
  intro ops
  induction ops with
  | nil =>
      intro d _ _
      exact ⟨rfl, by simp, by simp [ndSetAll], fun rp _ => rfl⟩
  | cons pv ops ih =>
      intro d hcond hpw
      obtain ⟨hpne, hfresh, hobs⟩ := hcond pv (by simp)
      rw [List.pairwise_cons] at hpw
      obtain ⟨hrel, hpw'⟩ := hpw
      have hok : (ndSetM pv.1 pv.2 d).2 = true :=
        ndSetM_ok_of_not_obstructed pv.1 pv.2 d hpne hobs
      have hcond2 : ∀ qv ∈ ops, qv.1 ≠ ([] : List String)
          ∧ resolve qv.1 (ndSetM pv.1 pv.2 d).1 = none
          ∧ ¬ Obstructed qv.1 (ndSetM pv.1 pv.2 d).1 := by
        intro qv hqv
        obtain ⟨hqne, hqfresh, hqobs⟩ := hcond qv (by simp [hqv])
        obtain ⟨h1, h2⟩ := hrel qv hqv
        refine ⟨hqne, ?_, ?_⟩
        · rw [resolve_ndSetM_frame pv.1 pv.2 d qv.1 h1 h2]
          exact hqfresh
        · rintro ⟨n, hn0, hnlt, w, hres⟩
          rcases resolve_new_leaf_only_at_path pv.1 pv.2 d hok (qv.1.take n) w hres
            with hold | heq
          · exact hqobs ⟨n, hn0, hnlt, w, hold⟩
          · apply h1
            rw [← heq]
            exact SegPre_take (le_of_lt hnlt)
      have hmain := ih (ndSetM pv.1 pv.2 d).1 hcond2 hpw'
      have hunfold : ndSetAll (pv :: ops) d
          = ((ndSetAll ops (ndSetM pv.1 pv.2 d).1).1,
             (ndSetM pv.1 pv.2 d).2 && (ndSetAll ops (ndSetM pv.1 pv.2 d).1).2) := rfl
      refine ⟨?_, ?_, ?_, ?_⟩
      · rw [hunfold]
        simp [hok, hmain.1]
      · intro qv hqv
        rw [hunfold]
        rcases List.mem_cons.mp hqv with hqpv | hqops
        · subst hqpv
          rw [hmain.2.2.2 qv.1 hrel]
          exact resolve_ndSetM_self qv.1 qv.2 d hok
        · exact hmain.2.1 qv hqops
      · rw [hunfold]
        have hk2 : (ndKeys (ndSetM pv.1 pv.2 d).1).Perm (pv.1 :: ndKeys d) :=
          ndKeys_ndSetM_fresh pv.1 pv.2 d hok hfresh
        refine hmain.2.2.1.trans ?_
        refine ((hk2.append_left (ops.map Prod.fst)).trans ?_)
        simp
      · intro rp hrp
        rw [hunfold]
        have hrp' : ∀ qv ∈ ops, ¬ SegPre rp qv.1 ∧ ¬ SegPre qv.1 rp :=
          fun qv hqv => hrp qv (by simp [hqv])
        rw [hmain.2.2.2 rp hrp']
        obtain ⟨h1, h2⟩ := hrp pv (by simp)
        exact resolve_ndSetM_frame pv.1 pv.2 d rp h2 h1

/-- C5 (amended): for a sequence of `set(path_i, value_i)` operations on
an initially empty `NestedDict` whose paths are distinct and pairwise not
segment-wise prefixes of one another, every set succeeds (intermediate
sub-trees are created on demand), every `get(path_i)` returns `value_i`,
and `keys()` yields exactly the set of distinct leaf paths — but grouped
under their shared sub-trees (depth-first), not in global first-set
order; overwriting an existing leaf path later changes neither the set
nor the order of `keys()`. -/
theorem nesteddict_roundtrip_amended {α : Type} (ops : List (List String × α))
    (h1 : ∀ pv ∈ ops, pv.1 ≠ ([] : List String))
    (h2 : ops.Pairwise (fun pv qv => ¬ SegPre pv.1 qv.1 ∧ ¬ SegPre qv.1 pv.1)) :
    (ndSetAll ops .nil).2 = true
    ∧ (∀ pv ∈ ops, ndGet pv.1 (ndSetAll ops .nil).1 = .ok (.leaf pv.2))
    ∧ ((ndKeys (ndSetAll ops .nil).1).Perm (ops.map Prod.fst))
    ∧ (∀ (d : Entries α) (p : List String) (v w : α),
        resolve p d = some (.leaf w) →
        (ndSetM p v d).2 = true ∧ ndKeys (ndSetM p v d).1 = ndKeys d) := by
  have hmain := ndSetAll_inv ops .nil
    (fun pv hpv => ⟨h1 pv hpv, resolve_nil_entries pv.1, not_obstructed_nil pv.1⟩) h2
  refine ⟨hmain.1, ?_, ?_, ?_⟩
  · intro pv hpv
    exact ((ndGet_spec pv.1 _ (h1 pv hpv)).1 _).mpr (hmain.2.1 pv hpv)
  · have hk := hmain.2.2.1
    simpa [ndKeys] using hk
  · intro d p v w hres
    exact ndSetM_overwrite p v w d hres

/-- C5 witness: three concrete sets on distinct, prefix-free paths all
succeed and read back their values; a leaf overwrite keeps the key list
identical. -/
theorem nesteddict_roundtrip_witness :
    (ndSetAll [((["a", "x"] : List String), (1 : Nat)), (["b"], 2), (["a", "y"], 3)] .nil).2
      = true
    ∧ ndGet ["b"]
        (ndSetAll [((["a", "x"] : List String), (1 : Nat)), (["b"], 2), (["a", "y"], 3)] .nil).1
      = .ok (.leaf 2)
    ∧ (ndSetM ["a", "x"] (9 : Nat)
          (ndSetAll [((["a", "x"] : List String), (1 : Nat)), (["b"], 2), (["a", "y"], 3)] .nil).1).2
      = true := by
  have h := nesteddict_roundtrip_amended
    [((["a", "x"] : List String), (1 : Nat)), (["b"], 2), (["a", "y"], 3)]
    (by decide) (by decide)
  refine ⟨h.1, h.2.1 (["b"], 2) (by decide), ?_⟩
  exact (h.2.2.2 _ ["a", "x"] 9 1 (by decide)).1

/-- C5 counterexample: on the distinct, prefix-free first-set sequence
a/x, b, a/y the iteration order of `keys()` is a/x, a/y, b — the fresh
path a/y is inserted into the existing sub-tree at a, not appended after
b — so `keys()` does not follow global first-set order as the claim
states. -/
theorem nesteddict_first_set_order_cex :
    (ndSetAll [((["a", "x"] : List String), (1 : Nat)), (["b"], 2), (["a", "y"], 3)] .nil).2
      = true
    ∧ ndKeys (ndSetAll
        [((["a", "x"] : List String), (1 : Nat)), (["b"], 2), (["a", "y"], 3)] .nil).1
      = [["a", "x"], ["a", "y"], ["b"]]
    ∧ ([["a", "x"], ["a", "y"], ["b"]] : List (List String))
      ≠ [["a", "x"], ["b"], ["a", "y"]] :=
  ⟨rfl, rfl, by decide⟩

/-- C7 counterexample: with the leaf 1 stored at `a`, `get("a/b")`
subscripts the integer leaf and raises a `TypeError`, which is not in the
`LookupError` taxonomy, contradicting the claim that every failure of
`get` is a lookup error. -/
theorem get_leaf_obstruction_cex :
    ndGet ["a", "b"] (Entries.consLeaf "a" (1 : Nat) .nil) = .error .typeErr
    ∧ isLookupErr .typeErr = false :=
  ⟨rfl, rfl⟩
